import Mathlib

/-!
Verification development for the skill-conversion scripts
(`convert_to_desktop_format.py` and `create_skill_zips.py`).

Documents are modelled as `List Char` (Python `str` operations act on code
points).  Each Python string primitive used by the scripts is embedded as a
small executable Lean function, and the two core routines
(`extract_title_and_description`, `clean_frontmatter`) plus the pure part of
`convert_skill` are translated line by line.  The ZIP creator is modelled as a
pure function on a filesystem tree.
-/

/-- Python `str.isspace` characters relevant here (ASCII whitespace:
space, tab, newline, carriage return, vertical tab, form feed). -/
def pyIsSpace (c : Char) : Bool :=
  c == ' ' || c == '\t' || c == '\n' || c == '\r' || c == Char.ofNat 11 || c == Char.ofNat 12

/-- Characters stripped by Python `str.strip('"\x27')`: double or single quote. -/
def isQuoteCh (c : Char) : Bool :=
  c == '"' || c == Char.ofNat 39

/-- Drop the longest suffix of characters satisfying `p`. -/
def dropTailWhile (p : Char → Bool) (l : List Char) : List Char :=
  (l.reverse.dropWhile p).reverse

/-- Python `str.strip()`: remove leading and trailing whitespace. -/
def stripL (l : List Char) : List Char :=
  dropTailWhile pyIsSpace (l.dropWhile pyIsSpace)

/-- Python `str.lstrip()`: remove leading whitespace. -/
def lstripL (l : List Char) : List Char :=
  l.dropWhile pyIsSpace

/-- Python `str.strip('"\x27')`: remove leading and trailing quote characters. -/
def stripQL (l : List Char) : List Char :=
  dropTailWhile isQuoteCh (l.dropWhile isQuoteCh)

/-- Boolean prefix test on character lists (Python `str.startswith`). -/
def pref : List Char → List Char → Bool
  | [], _ => true
  | _ :: _, [] => false
  | a :: as, b :: bs => a == b && pref as bs

/-- Python `str.split(c)` for a one-character separator. -/
def splitCh (c : Char) : List Char → List (List Char)
  | [] => [[]]
  | x :: xs =>
    if x == c then [] :: splitCh c xs
    else
      match splitCh c xs with
      | r :: rs => (x :: r) :: rs
      | [] => [[x]]

/-- Locate the first occurrence of `sep` in a list: returns the part strictly
before the occurrence and the part strictly after it. -/
def findOcc (sep : List Char) : List Char → Option (List Char × List Char)
  | [] => if sep.isEmpty then some ([], []) else none
  | c :: cs =>
    if pref sep (c :: cs) then some ([], (c :: cs).drop sep.length)
    else
      match findOcc sep cs with
      | some (b, a) => some (c :: b, a)
      | none => none

/-- Python `str.split(sep, n)`: split on `sep` at most `n` times. -/
def splitCap (sep : List Char) : Nat → List Char → List (List Char)
  | 0, l => [l]
  | n + 1, l =>
    match findOcc sep l with
    | none => [l]
    | some (b, a) => b :: splitCap sep n a

/-- Python `sep.join(parts)`. -/
def intercal (sep : List Char) : List (List Char) → List Char
  | [] => []
  | [x] => x
  | x :: xs => x ++ sep ++ intercal sep xs

/-- Python `s.replace('"', '\x5c"')` via `split` / `join` (the two are
equivalent for `str.replace`). -/
def escQuote (l : List Char) : List Char :=
  intercal "\\\"".data (splitCh '"' l)

/-- Truncation used while scanning for a description
(`next_line[:197] + "..." if len(next_line) > 200 else next_line`). -/
def truncD (l : List Char) : List Char :=
  if 200 < l.length then l.take 197 ++ "...".data else l

/-- Inner loop of `extract_title_and_description`: scan the given (at most 9)
lines after the title for the first acceptable description line. -/
def scanWin : List (List Char) → Option (List Char)
  | [] => none
  | l :: ls =>
    let n := stripL l
    if n.isEmpty || pref ['#'] n || pref "```".data n then scanWin ls
    else if pref "You are".data n then some (truncD n)
    else if 20 < n.length then some (truncD n)
    else scanWin ls

/-- Outer loop of `extract_title_and_description`: find the first line that
starts with a level-1 heading marker, returning it and the following lines. -/
def findH1 : List (List Char) → Option (List Char × List (List Char))
  | [] => none
  | l :: ls => if pref ['#', ' '] l then some (l, ls) else findH1 ls

/-- Model of `re.search(r'This skill activates when.*?:(.*?)(?=##|\x5cZ)',
content, re.DOTALL)`: the captured group is the text between the first colon
after the first occurrence of the phrase and the first following `##`
(or the end of the text).  `none` when the pattern does not match. -/
def activCap (content : List Char) : Option (List Char) :=
  match findOcc "This skill activates when".data content with
  | none => none
  | some (_, rest1) =>
    match findOcc [':'] rest1 with
    | none => none
    | some (_, rest2) =>
      match findOcc ['#', '#'] rest2 with
      | some (b, _) => some b
      | none => some rest2

/-- Backtracking search for `\x5cs+(.+)` after a bullet marker: given the
length `m` of the whitespace run, find the largest `k` with `1 ≤ k ≤ m` such
that the character of `cs` at index `k` exists and is not a newline (greedy
`\x5cs+`, giving characters back until `.+` can match). -/
def btk (cs : List Char) : Nat → Option Nat
  | 0 => none
  | k + 1 =>
    match cs.drop (k + 1) with
    | c :: _ => if c == '\n' then btk cs k else some (k + 1)
    | [] => btk cs k

/-- Model of `re.findall(r'[-*]\x5cs+(.+)', text)`: scan left to right; at each
`-` or `*`, try to match at least one whitespace character followed by a
nonempty run of non-newline characters; on success the capture is recorded and
scanning resumes after the match. -/
def bulletsAll : List Char → List (List Char)
  | [] => []
  | c :: cs =>
    if c == '-' || c == '*' then
      match btk cs (cs.takeWhile pyIsSpace).length with
      | some k =>
        let cap := (cs.drop k).takeWhile (fun x => !(x == '\n'))
        cap :: bulletsAll (cs.drop (k + cap.length))
      | none => bulletsAll cs
    else bulletsAll cs
termination_by l => l.length
decreasing_by
  all_goals simp [List.length_drop]
  all_goals omega

/-- Python truthiness of the `description` variable (`None` and `""` are falsy). -/
def optFalsy : Option (List Char) → Bool
  | none => true
  | some l => l.isEmpty

/-- Title-and-scan phase of `extract_title_and_description`: the raw title
(text after the first `# ` marker, stripped) and the result of scanning the
next 9 lines for a description, when a heading line exists. -/
def synthTitleRaw (content : List Char) : Option (List Char) × Option (List Char) :=
  match findH1 (splitCh '\n' (stripL content)) with
  | some (l, rest) => (some (stripL (l.drop 2)), scanWin (rest.take 9))
  | none => (none, none)

/-- Full translation of `extract_title_and_description(content)`. -/
def synthL (content : List Char) : List Char × List Char :=
  let p := synthTitleRaw content
  let title :=
    match p.1 with
    | some t => if t.isEmpty then "Untitled Skill".data else t
    | none => "Untitled Skill".data
  let d1 := p.2
  let d2 :=
    if optFalsy d1 then
      match activCap content with
      | some cap =>
        let bs := bulletsAll (stripL cap)
        if bs.isEmpty then d1
        else some (("Helps with: ".data ++ intercal ", ".data (bs.take 3)).take 200)
      | none => d1
    else d1
  let d3 :=
    if optFalsy d2 then
      some ("A skill for ".data ++ title.map Char.toLower ++ " tasks and workflows.".data)
    else d2
  (title, d3.getD [])

/-- The fixed allow-list `ALLOWED_KEYS` of `convert_to_desktop_format.py`. -/
def allowedKey (k : List Char) : Bool :=
  k == "name".data || k == "description".data || k == "license".data ||
    k == "allowed-tools".data || k == "metadata".data

/-- Key of a frontmatter line: `line.split(':', 1)[0].strip()`. -/
def keyOfLine (line : List Char) : List Char :=
  stripL (line.takeWhile (fun c => !(c == ':')))

/-- Value of a frontmatter line:
`line.split(':', 1)[1].strip().strip('"\x27')`. -/
def valOfLine (line : List Char) : List Char :=
  stripQL (stripL ((line.dropWhile (fun c => !(c == ':'))).drop 1))

/-- One iteration of the frontmatter-line loop in `clean_frontmatter`,
accumulating the recognized `name` and `description` values. -/
def procLine (acc : Option (List Char) × Option (List Char)) (line : List Char) :
    Option (List Char) × Option (List Char) :=
  if line.contains ':' then
    if allowedKey (keyOfLine line) then
      if keyOfLine line == "name".data then (some (valOfLine line), acc.2)
      else if keyOfLine line == "description".data then (acc.1, some (valOfLine line))
      else acc
    else acc
  else acc

/-- Full translation of `clean_frontmatter(content)`:
returns `(body, name, description)`. -/
def cleanFmL (content : List Char) : List Char × Option (List Char) × Option (List Char) :=
  if !(pref "---".data (stripL content)) then (content, none, none)
  else
    match splitCap "---".data 2 content with
    | _ :: p1 :: p2 :: _ =>
      let r := (splitCh '\n' (stripL p1)).foldl procLine (none, none)
      (p2, r.1, r.2)
    | _ => (content, none, none)

/-- Output frontmatter block built by `convert_skill`:
`'---\nname: "{title}"\ndescription: "{description}"\n---\n\n'`. -/
def renderFM (t d : List Char) : List Char :=
  "---\nname: \"".data ++ t ++ "\"\ndescription: \"".data ++ d ++ "\"\n---\n\n".data

/-- Pure content transformation performed by `convert_skill`: clean the
frontmatter, synthesize title/description from the body, prefer existing
(truthy) frontmatter values, truncate, escape quotes, and rebuild. -/
def convertContentL (content : List Char) : List Char :=
  let e := cleanFmL content
  let body := e.1
  let s := synthL body
  let title1 :=
    match e.2.1 with
    | some n => if n.isEmpty then s.1 else n
    | none => s.1
  let desc1 :=
    match e.2.2 with
    | some d => if d.isEmpty then s.2 else d
    | none => s.2
  let title2 := if 64 < title1.length then title1.take 64 else title1
  let desc2 := if 200 < desc1.length then desc1.take 200 else desc1
  renderFM title2 (escQuote desc2) ++ lstripL body

/-- Body component selected by `convert_skill` (result of `clean_frontmatter`). -/
def bodyOfL (content : List Char) : List Char :=
  (cleanFmL content).1

/-- Title after precedence resolution (existing truthy frontmatter `name`
beats the synthesized title), before any truncation. -/
def resolvedTitleL (content : List Char) : List Char :=
  match (cleanFmL content).2.1 with
  | some n => if n.isEmpty then (synthL (bodyOfL content)).1 else n
  | none => (synthL (bodyOfL content)).1

/-- Description after precedence resolution, before truncation and escaping. -/
def resolvedDescL (content : List Char) : List Char :=
  match (cleanFmL content).2.2 with
  | some d => if d.isEmpty then (synthL (bodyOfL content)).2 else d
  | none => (synthL (bodyOfL content)).2

/-- Title actually embedded in the output (after the 64-character truncation). -/
def truncatedTitleL (content : List Char) : List Char :=
  if 64 < (resolvedTitleL content).length then (resolvedTitleL content).take 64
  else resolvedTitleL content

/-- Description after the 200-character truncation, before quote escaping. -/
def truncatedDescL (content : List Char) : List Char :=
  if 200 < (resolvedDescL content).length then (resolvedDescL content).take 200
  else resolvedDescL content

/-- Description value actually embedded in the output frontmatter
(truncated, then quote-escaped). -/
def embeddedDescL (content : List Char) : List Char :=
  escQuote (truncatedDescL content)

/-- Keys appearing in the frontmatter block of a document: parse the region
between the first two `---` delimiters exactly as `clean_frontmatter` does and
collect the key of every line containing a colon. -/
def fmKeysL (l : List Char) : List (List Char) :=
  match splitCap "---".data 2 l with
  | _ :: p1 :: _ :: _ =>
    ((splitCh '\n' (stripL p1)).filter (fun ln => ln.contains ':')).map keyOfLine
  | _ => []

/-- Description produced by the 9-line window scan, if any. -/
def scanDescL (content : List Char) : Option (List Char) :=
  (synthTitleRaw content).2

/-- Description produced by the "This skill activates when" bullet search,
if any. -/
def bulDescL (content : List Char) : Option (List Char) :=
  match activCap content with
  | some cap =>
    let bs := bulletsAll (stripL cap)
    if bs.isEmpty then none
    else some (("Helps with: ".data ++ intercal ", ".data (bs.take 3)).take 200)
  | none => none

/-- Title component of `synthL` (after the `Untitled Skill` fallback). -/
def titleOfL (content : List Char) : List Char :=
  match (synthTitleRaw content).1 with
  | some t => if t.isEmpty then "Untitled Skill".data else t
  | none => "Untitled Skill".data

/-- Description after the window scan and the bullet-search fallback, before
the final fallback sentence. -/
def descStage2L (content : List Char) : Option (List Char) :=
  if optFalsy (scanDescL content) then
    match activCap content with
    | some cap =>
      let bs := bulletsAll (stripL cap)
      if bs.isEmpty then scanDescL content
      else some (("Helps with: ".data ++ intercal ", ".data (bs.take 3)).take 200)
    | none => scanDescL content
  else scanDescL content

/-- Final fallback description sentence. -/
def fallbackDescL (content : List Char) : List Char :=
  "A skill for ".data ++ (titleOfL content).map Char.toLower ++ " tasks and workflows.".data

/-- Title selection as claimed by the spec sentence for C3: the first line
whose content starts with `# ` followed by non-empty text supplies the title;
otherwise the placeholder. -/
def claimTitleL (content : List Char) : List Char :=
  match (splitCh '\n' (stripL content)).find?
      (fun l => pref ['#', ' '] l && !(stripL (l.drop 2)).isEmpty) with
  | some l => stripL (l.drop 2)
  | none => "Untitled Skill".data

/-- Amended title rule matching the code: the first line starting with `# `
decides the title; if its stripped text is empty the placeholder is used and
no later heading line is considered. -/
def specTitleAmendedL (content : List Char) : List Char :=
  match (splitCh '\n' (stripL content)).find? (fun l => pref ['#', ' '] l) with
  | some l =>
    if (stripL (l.drop 2)).isEmpty then "Untitled Skill".data else stripL (l.drop 2)
  | none => "Untitled Skill".data

/-- Description-line acceptance as described by the spec for C2: stripped
line non-empty, not a heading, not a code fence, and either a "You are" line
or longer than 20 characters. -/
def acceptLine (n : List Char) : Bool :=
  !n.isEmpty && !pref ['#'] n && !pref "```".data n &&
    (pref "You are".data n || decide (20 < n.length))

/-- First accepted line of the scan window, truncated (spec-side description
of the 9-line scan). -/
def specFirstAccepted (window : List (List Char)) : Option (List Char) :=
  ((window.map stripL).find? acceptLine).map truncD

/-- Document of the shape used for round-trip statements: a well-formed
frontmatter block with exactly a `name` and a `description` field, followed
by a body. -/
def docOfL (t d b : List Char) : List Char :=
  "---\nname: \"".data ++ t ++ "\"\ndescription: \"".data ++ d ++ "\"\n---\n".data ++ b

/-- Frontmatter region of a rendered two-field document (between the two
`---` delimiters), in right-associated form. -/
def fmMid (t d : List Char) : List Char :=
  "\nname: \"".data ++ (t ++ ("\"\ndescription: \"".data ++ (d ++ "\"\n".data)))

/-- Rendered two-field document in canonical right-associated form:
`---`, the frontmatter region, `---`, and the trailing text `T`. -/
def fmDoc (t d T : List Char) : List Char :=
  "---".data ++ (fmMid t d ++ ("---".data ++ T))

/-- Rendered `name` frontmatter line. -/
def nameLineOf (t : List Char) : List Char :=
  "name: \"".data ++ (t ++ "\"".data)

/-- Rendered `description` frontmatter line. -/
def descLineOf (d : List Char) : List Char :=
  "description: \"".data ++ (d ++ "\"".data)

/-- String-level wrapper of `extract_title_and_description`. -/
def extractTitleAndDescription (content : String) : String × String :=
  ((synthL content.data).1.asString, (synthL content.data).2.asString)

/-- String-level wrapper of `clean_frontmatter`. -/
def cleanFrontmatter (content : String) : String × Option String × Option String :=
  ((cleanFmL content.data).1.asString,
   (cleanFmL content.data).2.1.map List.asString,
   (cleanFmL content.data).2.2.map List.asString)

/-- String-level wrapper of the pure content transformation of `convert_skill`. -/
def convertContent (content : String) : String :=
  (convertContentL content.data).asString

/-- Filesystem tree: a regular file or a directory with children. -/
inductive FsEntry where
  | file (nm : String)
  | dir (nm : String) (children : List FsEntry)

mutual

/-- Full paths (as component lists) of all regular files in a tree rooted at
`base` (the tree's own name is appended to `base` when it is a directory). -/
def filesOf (base : List String) : FsEntry → List (List String)
  | .file n => [base ++ [n]]
  | .dir n cs => filesOfList (base ++ [n]) cs

/-- Full paths of all regular files in a forest located at `base`. -/
def filesOfList (base : List String) : List FsEntry → List (List String)
  | [] => []
  | t :: ts => filesOf base t ++ filesOfList base ts

end

/-- Name of a filesystem entry (`Path.name`). -/
def entryName : FsEntry → String
  | .file n => n
  | .dir n _ => n

/-- Model of `skill_dir.rglob('*')` filtered by `is_file()`: all regular files
strictly inside the entry, as full paths, when the skill directory sits inside
`parentPath`. -/
def rglobFilesOf (parentPath : List String) : FsEntry → List (List String)
  | .file _ => []
  | .dir n cs => filesOfList (parentPath ++ [n]) cs

/-- Render a relative path with `/` separators (`str` of a POSIX path). -/
def renderPath (p : List String) : String :=
  String.intercalate "/" p

/-- Model of `create_skill_zip`: the archive is named `<skill-dir-name>.zip`
and contains one entry per regular file, with archive path
`file_path.relative_to(skill_dir.parent)`. -/
def createSkillZip (parentPath : List String) (skillDir : FsEntry) : String × List String :=
  (entryName skillDir ++ ".zip",
   (rglobFilesOf parentPath skillDir).map (fun p => renderPath (p.drop parentPath.length)))

/-- Character class used in round-trip hypotheses: plain alphanumeric or
space characters (no newline, hyphen, colon trouble or quotes). -/
def niceCh (c : Char) : Bool :=
  c.isAlphanum || c == ' '

/-- Frontmatter line whose recognized key is `name`. -/
def isNameLine (l : List Char) : Bool :=
  l.contains ':' && (keyOfLine l == "name".data)

/-- Lines of the frontmatter block of a document, exactly as iterated by
`clean_frontmatter` (empty when the block is absent or unterminated). -/
def fmLinesOfL (l : List Char) : List (List Char) :=
  match splitCap "---".data 2 l with
  | _ :: p1 :: _ :: _ => splitCh '\n' (stripL p1)
  | _ => []

/-- Concrete document with an allow-listed `license` field (used for C1). -/
def exDocC1 : String :=
  "---\nname: \"Foo\"\nlicense: \"MIT\"\ndescription: \"Bar\"\n---\nThe body."

/-- Concrete document whose first `# ` line has empty text (used for C3). -/
def exDocC3 : String :=
  "# \n# Real Title"

/-- First scenario document of C2. -/
def exDocC2a : String :=
  "# My Skill\n\nThis skill helps you write tests.\n"

/-- Second scenario document of C2. -/
def exDocC2b : String :=
  "# X\nYou are a helpful assistant for data cleanup.\n"

/-- Concrete document whose synthesized description is truncated at the
200-character boundary and contains a double quote among the first 197
characters (used for C10): the description line is 222 characters long with
quotes at positions 100 and 201. -/
def exDocC10 : String :=
  ("# T\n".data ++ List.replicate 100 'a' ++ ('"' :: List.replicate 100 'b') ++
    ('"' :: List.replicate 20 'c') ++ "\n".data).asString

/-! ### Basic toolkit lemmas -/

theorem pref_append_self (p t : List Char) : pref p (p ++ t) = true := by
  induction p with
  | nil => rfl
  | cons a as ih => simpa [pref] using ih

theorem dropWhile_all_not (p : Char → Bool) (l : List Char)
    (h : ∀ x ∈ l, p x = false) : l.dropWhile p = l := by
  induction l with
  | nil => rfl
  | cons a as ih =>
    have ha := h a (by simp)
    simp only [List.dropWhile_cons, ha, Bool.false_eq_true, if_false]

theorem dropWhile_ne_nil_of_mem (p : Char → Bool) (l : List Char) (x : Char)
    (hx : x ∈ l) (hp : p x = false) : l.dropWhile p ≠ [] := by
  intro hnil
  have hall := List.dropWhile_eq_nil_iff.mp hnil
  have := hall x hx
  simp [hp] at this

theorem dropWhile_append_pos (p : Char → Bool) (l₁ l₂ : List Char)
    (h : l₁.dropWhile p ≠ []) :
    (l₁ ++ l₂).dropWhile p = l₁.dropWhile p ++ l₂ := by
  rw [List.dropWhile_append, if_neg]
  simpa [List.isEmpty_iff] using h

theorem dropWhile_append_all (p : Char → Bool) (l₁ l₂ : List Char)
    (h : ∀ x ∈ l₁, p x = true) :
    (l₁ ++ l₂).dropWhile p = l₂.dropWhile p := by
  induction l₁ with
  | nil => rfl
  | cons a as ih =>
    have ha := h a (by simp)
    simp only [List.cons_append, List.dropWhile_cons, ha, if_true]
    exact ih (fun x hx => h x (by simp [hx]))

theorem dropTail_append (p : Char → Bool) (A B : List Char) (x : Char)
    (hx : x ∈ B) (hp : p x = false) :
    dropTailWhile p (A ++ B) = A ++ dropTailWhile p B := by
  unfold dropTailWhile
  rw [List.reverse_append,
    dropWhile_append_pos p B.reverse A.reverse
      (dropWhile_ne_nil_of_mem p B.reverse x (by simp [hx]) hp)]
  simp

theorem dropTail_append_all (p : Char → Bool) (A B : List Char)
    (h : ∀ x ∈ B, p x = true) :
    dropTailWhile p (A ++ B) = dropTailWhile p A := by
  unfold dropTailWhile
  rw [List.reverse_append,
    dropWhile_append_all p B.reverse A.reverse (fun x hx => h x (by simpa using hx))]

theorem dropTail_concat (p : Char → Bool) (X : List Char) (c : Char)
    (hc : p c = false) : dropTailWhile p (X ++ [c]) = X ++ [c] := by
  unfold dropTailWhile
  rw [List.reverse_append]
  simp only [List.reverse_cons, List.reverse_nil, List.nil_append, List.singleton_append,
    List.dropWhile_cons, hc, Bool.false_eq_true, if_false]
  simp

theorem dropTail_all_not (p : Char → Bool) (l : List Char)
    (h : ∀ x ∈ l, p x = false) : dropTailWhile p l = l := by
  unfold dropTailWhile
  rw [dropWhile_all_not p l.reverse (fun x hx => h x (by simpa using hx))]
  simp


theorem findOcc_cons (sep : List Char) (c : Char) (cs : List Char) :
    findOcc sep (c :: cs) =
      if pref sep (c :: cs) then some ([], (c :: cs).drop sep.length)
      else
        match findOcc sep cs with
        | some (b, a) => some (c :: b, a)
        | none => none := rfl

theorem pref_cons_ne (s0 c : Char) (sep' rest : List Char) (h : c ≠ s0) :
    pref (s0 :: sep') (c :: rest) = false := by
  simp only [pref, Bool.and_eq_false_iff]
  left
  simp [beq_iff_eq]
  exact fun e => h e.symm

theorem findOcc_self (sep t : List Char) (hs : sep ≠ []) :
    findOcc sep (sep ++ t) = some ([], t) := by
  cases sep with
  | nil => exact absurd rfl hs
  | cons s0 sep' =>
    show findOcc (s0 :: sep') (s0 :: (sep' ++ t)) = some ([], t)
    rw [findOcc_cons]
    rw [if_pos (show pref (s0 :: sep') (s0 :: (sep' ++ t)) = true from
      pref_append_self (s0 :: sep') t)]
    have h2 : (s0 :: (sep' ++ t)).drop (s0 :: sep').length = t := by
      simpa using List.drop_left (s0 :: sep') t
    rw [h2]

theorem findOcc_sandwich (s0 : Char) (sep' M T : List Char)
    (hM : ∀ c ∈ M, c ≠ s0) :
    findOcc (s0 :: sep') (M ++ ((s0 :: sep') ++ T)) = some (M, T) := by
  induction M with
  | nil => simpa using findOcc_self (s0 :: sep') T (by simp)
  | cons c M' ih =>
    show findOcc (s0 :: sep') (c :: (M' ++ ((s0 :: sep') ++ T))) = some (c :: M', T)
    rw [findOcc_cons]
    rw [if_neg (by simp [pref_cons_ne s0 c sep' _ (hM c (by simp))])]
    rw [ih (fun x hx => hM x (by simp [hx]))]

theorem findOcc_chNone (c : Char) (l : List Char) (h : c ∉ l) : findOcc [c] l = none := by
  induction l with
  | nil => rfl
  | cons x xs ih =>
    rw [findOcc_cons]
    rw [if_neg (by simp [pref_cons_ne c x [] _ (fun e => h (by simp [e]))])]
    rw [ih (fun hm => h (by simp [hm]))]

theorem splitCh_cons (c x : Char) (xs : List Char) :
    splitCh c (x :: xs) =
      if x == c then [] :: splitCh c xs
      else
        match splitCh c xs with
        | r :: rs => (x :: r) :: rs
        | [] => [[x]] := rfl

theorem splitCh_ne_nil (c : Char) (l : List Char) : splitCh c l ≠ [] := by
  induction l with
  | nil => simp [splitCh]
  | cons x xs ih =>
    rw [splitCh_cons]
    by_cases hx : (x == c) = true
    · simp [hx]
    · simp only [hx, Bool.false_eq_true, if_false]
      cases h' : splitCh c xs with
      | nil => simp
      | cons r rs => simp

theorem splitCh_not_mem (c : Char) (l : List Char) (h : c ∉ l) : splitCh c l = [l] := by
  induction l with
  | nil => rfl
  | cons x xs ih =>
    rw [splitCh_cons]
    have hx : (x == c) = false := by
      simp [beq_iff_eq]
      exact fun e => h (by simp [e])
    rw [if_neg (by simp [hx])]
    rw [ih (fun hm => h (by simp [hm]))]

theorem splitCh_sandwich (c : Char) (A B : List Char) (h : c ∉ A) :
    splitCh c (A ++ c :: B) = A :: splitCh c B := by
  induction A with
  | nil =>
    show splitCh c (c :: B) = [] :: splitCh c B
    rw [splitCh_cons]
    simp
  | cons a A' ih =>
    show splitCh c (a :: (A' ++ c :: B)) = (a :: A') :: splitCh c B
    rw [splitCh_cons]
    have ha : (a == c) = false := by
      simp [beq_iff_eq]
      exact fun e => h (by simp [e])
    rw [if_neg (by simp [ha])]
    rw [ih (fun hm => h (by simp [hm]))]

theorem intercal_cons_cons (sep : List Char) (x : Char) (r : List Char)
    (rs : List (List Char)) :
    intercal sep ((x :: r) :: rs) = x :: intercal sep (r :: rs) := by
  cases rs with
  | nil => rfl
  | cons y ys => simp [intercal]

theorem intercal_nil_cons (sep y : List Char) (ys : List (List Char)) :
    intercal sep ([] :: y :: ys) = sep ++ intercal sep (y :: ys) := by
  simp [intercal]

theorem escQuote_eq_flatMap (l : List Char) :
    escQuote l = l.flatMap (fun c => if c = '"' then "\\\"".data else [c]) := by
  induction l with
  | nil => rfl
  | cons x xs ih =>
    by_cases hx : x = '"'
    · subst hx
      show intercal "\\\"".data (splitCh '"' ('"' :: xs)) = _
      have h1 : splitCh '"' ('"' :: xs) = [] :: splitCh '"' xs := by
        rw [splitCh_cons]; simp
      rw [h1]
      cases h' : splitCh '"' xs with
      | nil => exact absurd h' (splitCh_ne_nil _ _)
      | cons r rs =>
        rw [intercal_nil_cons]
        have h2 : intercal "\\\"".data (r :: rs) = escQuote xs := by
          unfold escQuote; rw [h']
        rw [h2, ih]
        simp
    · show intercal "\\\"".data (splitCh '"' (x :: xs)) = _
      rw [splitCh_cons]
      rw [if_neg (by simp [beq_iff_eq]; exact hx)]
      cases h' : splitCh '"' xs with
      | nil => exact absurd h' (splitCh_ne_nil _ _)
      | cons r rs =>
        rw [intercal_cons_cons]
        have h2 : intercal "\\\"".data (r :: rs) = escQuote xs := by
          unfold escQuote; rw [h']
        rw [h2, ih]
        simp [hx]

theorem escQuote_length (l : List Char) :
    (escQuote l).length = l.length + l.count '"' := by
  rw [escQuote_eq_flatMap]
  induction l with
  | nil => rfl
  | cons x xs ih =>
    by_cases hx : x = '"'
    · subst hx
      simp only [List.flatMap_cons, if_pos rfl, List.length_append, ih, List.count_cons]
      simp
      omega
    · simp only [List.flatMap_cons, if_neg hx, List.length_append, ih, List.count_cons]
      simp [beq_iff_eq, hx]
      omega

theorem scanWin_cons (l : List Char) (ls : List (List Char)) :
    scanWin (l :: ls) =
      if (stripL l).isEmpty || pref ['#'] (stripL l) || pref "```".data (stripL l) then
        scanWin ls
      else if pref "You are".data (stripL l) then some (truncD (stripL l))
      else if 20 < (stripL l).length then some (truncD (stripL l))
      else scanWin ls := rfl

theorem truncD_ne_nil (n : List Char) (h : n ≠ []) : truncD n ≠ [] := by
  unfold truncD
  split
  · simp
  · exact h

theorem scanWin_ne_nil (ls : List (List Char)) (d : List Char) (h : scanWin ls = some d) :
    d ≠ [] := by
  induction ls with
  | nil => simp [scanWin] at h
  | cons l ls ih =>
    rw [scanWin_cons] at h
    split at h
    · exact ih h
    · split at h
      · cases h
        apply truncD_ne_nil
        intro hnil
        rename_i h1 _
        exact h1 (by simp [hnil])
      · split at h
        · cases h
          apply truncD_ne_nil
          intro hnil
          rename_i h1 _ _
          exact h1 (by simp [hnil])
        · exact ih h

theorem scanWin_eq_spec (ls : List (List Char)) : scanWin ls = specFirstAccepted ls := by
  induction ls with
  | nil => rfl
  | cons l ls ih =>
    rw [scanWin_cons]
    unfold specFirstAccepted at *
    simp only [List.map_cons]
    by_cases hq : acceptLine (stripL l) = true
    · rw [List.find?_cons_of_pos _ hq]
      have hq' := hq
      simp only [acceptLine, Bool.and_eq_true, Bool.not_eq_true'] at hq'
      obtain ⟨⟨⟨he, hh⟩, hf⟩, hrest⟩ := hq'
      have h0 : ((stripL l).isEmpty || pref ['#'] (stripL l) ||
          pref "```".data (stripL l)) = false := by
        simp [he, hh, hf]
      rw [if_neg (by simp [h0])]
      rcases (Bool.or_eq_true _ _).mp hrest with hy | hlen
      · rw [if_pos hy]
        rfl
      · by_cases hy2 : pref "You are".data (stripL l) = true
        · rw [if_pos hy2]
          rfl
        · rw [if_neg (by simp [hy2]), if_pos (of_decide_eq_true hlen)]
          rfl
    · rw [List.find?_cons_of_neg _ (by simpa using hq)]
      by_cases h0 : ((stripL l).isEmpty || pref ['#'] (stripL l) ||
          pref "```".data (stripL l)) = true
      · rw [if_pos h0]
        exact ih
      · rw [if_neg (by simp [h0])]
        have hcand : (stripL l).isEmpty = false ∧ pref ['#'] (stripL l) = false ∧
            pref "```".data (stripL l) = false := by
          constructor
          · revert h0; cases (stripL l).isEmpty <;> simp
          constructor
          · revert h0; cases pref ['#'] (stripL l) <;> simp
          · revert h0; cases pref "```".data (stripL l) <;> simp
        have hy : pref "You are".data (stripL l) = false := by
          cases hpp : pref "You are".data (stripL l)
          · rfl
          · exact absurd (by simp [acceptLine, hcand.1, hcand.2.1, hcand.2.2, hpp]) hq
        have hlen : ¬(20 < (stripL l).length) := by
          intro hcon
          exact hq (by simp [acceptLine, hcand.1, hcand.2.1, hcand.2.2, hcon])
        rw [if_neg (by simp [hy]), if_neg hlen]
        exact ih

theorem findH1_fst (ls : List (List Char)) :
    (findH1 ls).map Prod.fst = ls.find? (fun l => pref ['#', ' '] l) := by
  induction ls with
  | nil => rfl
  | cons l ls ih =>
    show (if pref ['#', ' '] l then some (l, ls) else findH1 ls).map Prod.fst = _
    by_cases h : pref ['#', ' '] l = true
    · rw [if_pos h, List.find?_cons_of_pos _ h]
      rfl
    · rw [if_neg (by simp [h]), List.find?_cons_of_neg _ (by simp [h])]
      exact ih

theorem helps_take_ne_nil (X : List Char) : ("Helps with: ".data ++ X).take 200 ≠ [] := by
  intro hc
  rcases List.take_eq_nil_iff.mp hc with h200 | hnil
  · exact absurd h200 (by norm_num)
  · exact absurd hnil (by simp)

theorem convertContentL_eq (content : List Char) :
    convertContentL content =
      renderFM (truncatedTitleL content) (embeddedDescL content) ++ lstripL (bodyOfL content) := rfl

theorem synthL_parts (content : List Char) :
    synthL content =
      (titleOfL content,
       (if optFalsy (descStage2L content) then some (fallbackDescL content)
        else descStage2L content).getD []) := rfl

mutual

theorem filesOf_base (base : List String) (t : FsEntry) :
    filesOf base t = (filesOf [] t).map (fun p => base ++ p) := by
  cases t with
  | file n => simp [filesOf]
  | dir n cs =>
    show filesOfList (base ++ [n]) cs = (filesOfList ([] ++ [n]) cs).map _
    rw [filesOfList_base (base ++ [n]) cs, filesOfList_base ([] ++ [n]) cs]
    simp [List.map_map, Function.comp_def]

theorem filesOfList_base (base : List String) (ts : List FsEntry) :
    filesOfList base ts = (filesOfList [] ts).map (fun p => base ++ p) := by
  cases ts with
  | nil => simp [filesOfList]
  | cons t ts' =>
    show filesOf base t ++ filesOfList base ts' = (filesOf [] t ++ filesOfList [] ts').map _
    rw [filesOf_base base t, filesOfList_base base ts']
    simp

end

/-! ### Claim theorems (C2, C3, C4, C5, C6, C9, C10) -/

/-- C4: for every document that, after trimming leading whitespace, does not
begin with the `---` delimiter, and for every document whose delimiter block
is unterminated (splitting on the delimiter yields fewer than three
segments), `clean_frontmatter` returns the original text unchanged as the
body together with an empty recognized-field set. -/
theorem c4_no_frontmatter (content : String)
    (h : pref "---".data (stripL content.data) = false ∨
         (splitCap "---".data 2 content.data).length < 3) :
    cleanFrontmatter content = (content, none, none) := by
  have hl : cleanFmL content.data = (content.data, none, none) := by
    unfold cleanFmL
    by_cases hp : pref "---".data (stripL content.data) = true
    · rw [if_neg (by simp [hp])]
      have h2 : (splitCap "---".data 2 content.data).length < 3 := by
        rcases h with h1 | h2
        · rw [hp] at h1
          simp at h1
        · exact h2
      cases hs : splitCap "---".data 2 content.data with
      | nil => rfl
      | cons p0 rest =>
        cases rest with
        | nil => rfl
        | cons p1 rest2 =>
          cases rest2 with
          | nil => rfl
          | cons p2 rest3 =>
            rw [hs] at h2
            simp at h2
            omega
    · have hf : pref "---".data (stripL content.data) = false := by
        revert hp
        cases pref "---".data (stripL content.data) <;> simp
      rw [if_pos (by simp [hf])]
  unfold cleanFrontmatter
  rw [hl]
  exact rfl

/-- Witness for C4 at a concrete document without a frontmatter delimiter. -/
theorem c4_witness :
    cleanFrontmatter "no frontmatter here" = ("no frontmatter here", none, none) :=
  c4_no_frontmatter "no frontmatter here" (Or.inl (by decide))

/-- C5: after precedence resolution `convert_skill` truncates the title to at
most 64 characters and the description to at most 200 characters by straight
truncation, regardless of whether the value came from extraction or
synthesis, and then escapes every literal double quote of the description by
prefixing it with a backslash; the rebuilt output renders exactly these
processed values. -/
theorem c5_truncate_then_escape :
    (∀ content : List Char,
      convertContentL content =
        renderFM ((resolvedTitleL content).take 64)
            (escQuote ((resolvedDescL content).take 200)) ++
          lstripL (bodyOfL content)) ∧
    (∀ content : List Char,
      ((resolvedTitleL content).take 64).length ≤ 64 ∧
      ((resolvedDescL content).take 200).length ≤ 200) ∧
    (∀ l : List Char,
      escQuote l = l.flatMap (fun c => if c = '"' then "\\\"".data else [c])) := by
  refine ⟨fun content => ?_, fun content => ⟨?_, ?_⟩, escQuote_eq_flatMap⟩
  · rw [convertContentL_eq]
    have ht : truncatedTitleL content = (resolvedTitleL content).take 64 := by
      unfold truncatedTitleL
      split
      · rfl
      · rename_i hle
        rw [List.take_of_length_le (by omega)]
    have hd : truncatedDescL content = (resolvedDescL content).take 200 := by
      unfold truncatedDescL
      split
      · rfl
      · rename_i hle
        rw [List.take_of_length_le (by omega)]
    rw [show embeddedDescL content = escQuote (truncatedDescL content) from rfl, ht, hd]
  · simpa using List.length_take_le 64 (resolvedTitleL content)
  · simpa using List.length_take_le 200 (resolvedDescL content)

/-- C6: `synthesize` is total: it returns a non-empty title and a non-empty
description for every input; the empty document yields the placeholder title
and the sentence "A skill for untitled skill tasks and workflows."; and the
final fallback sentence (built from the lowercased title) is produced
whenever neither the 9-line scan nor the bullet search yields a
description. -/
theorem c6_synthesize_total :
    (∀ content : List Char, (synthL content).1 ≠ [] ∧ (synthL content).2 ≠ []) ∧
    synthL "".data =
      ("Untitled Skill".data, "A skill for untitled skill tasks and workflows.".data) ∧
    (∀ content : List Char,
      optFalsy (scanDescL content) = true → optFalsy (bulDescL content) = true →
      (synthL content).2 = fallbackDescL content) := by
  have hdesc2 : ∀ content : List Char, optFalsy (scanDescL content) = true →
      optFalsy (bulDescL content) = true → optFalsy (descStage2L content) = true := by
    intro content h1 h2
    unfold descStage2L
    rw [if_pos h1]
    cases hac : activCap content with
    | none => exact h1
    | some cap =>
      show optFalsy (if (bulletsAll (stripL cap)).isEmpty then scanDescL content
        else some (("Helps with: ".data ++
          intercal ", ".data ((bulletsAll (stripL cap)).take 3)).take 200)) = true
      by_cases hbs : (bulletsAll (stripL cap)).isEmpty = true
      · rw [if_pos hbs]
        exact h1
      · exfalso
        have h2x := h2
        simp only [bulDescL, hac] at h2x
        rw [if_neg hbs] at h2x
        simp [optFalsy, List.isEmpty_iff] at h2x
  refine ⟨fun content => ⟨?_, ?_⟩, by decide, fun content h1 h2 => ?_⟩
  · rw [synthL_parts]
    show titleOfL content ≠ []
    unfold titleOfL
    cases (synthTitleRaw content).1 with
    | none => simp
    | some t =>
      show (if t.isEmpty then "Untitled Skill".data else t) ≠ []
      by_cases ht : t.isEmpty = true
      · rw [if_pos ht]
        simp
      · rw [if_neg ht]
        simpa [List.isEmpty_iff] using ht
  · rw [synthL_parts]
    show (if optFalsy (descStage2L content) then some (fallbackDescL content)
          else descStage2L content).getD [] ≠ []
    by_cases hf : optFalsy (descStage2L content) = true
    · rw [if_pos hf]
      show fallbackDescL content ≠ []
      unfold fallbackDescL
      simp
    · rw [if_neg hf]
      cases hd : descStage2L content with
      | none => exact absurd (by rw [hd]; rfl) hf
      | some l =>
        show l ≠ []
        rw [hd] at hf
        simpa [optFalsy, List.isEmpty_iff] using hf
  · rw [synthL_parts]
    show (if optFalsy (descStage2L content) then some (fallbackDescL content)
          else descStage2L content).getD [] = fallbackDescL content
    rw [if_pos (hdesc2 content h1 h2)]
    rfl

/-- Witness for C6: a document with no heading and no activation phrase gets
the final fallback description. -/
theorem c6_witness :
    (synthL "Hello".data).2 = fallbackDescL "Hello".data :=
  c6_synthesize_total.2.2 "Hello".data (by decide) (by decide)

/-- C2: the 9-line scan selects the first stripped line that is non-empty,
does not start with `#`, does not start with a code fence, and either starts
with "You are" (used as-is, with 197-plus-ellipsis truncation past 200
characters) or exceeds 20 characters; the description of `synthesize` equals
the accepted line, and the two scenario documents behave as stated. -/
theorem c2_window_scan :
    (∀ window : List (List Char), scanWin window = specFirstAccepted window) ∧
    (∀ (content l : List Char) (rest : List (List Char)) (d : List Char),
      findH1 (splitCh '\n' (stripL content)) = some (l, rest) →
      scanWin (rest.take 9) = some d →
      (synthL content).2 = d) ∧
    extractTitleAndDescription exDocC2a =
      ("My Skill", "This skill helps you write tests.") ∧
    (extractTitleAndDescription exDocC2b).2 =
      "You are a helpful assistant for data cleanup." := by
  refine ⟨scanWin_eq_spec, fun content l rest d hFind hScan => ?_, by decide, by decide⟩
  have hscanD : scanDescL content = some d := by
    unfold scanDescL synthTitleRaw
    rw [hFind]
    exact hScan
  have hdne : d ≠ [] := scanWin_ne_nil _ _ hScan
  have hfalse : optFalsy (scanDescL content) = false := by
    rw [hscanD]
    simpa [optFalsy, List.isEmpty_iff] using hdne
  have hst2 : descStage2L content = some d := by
    unfold descStage2L
    rw [if_neg (by simp [hfalse])]
    exact hscanD
  rw [synthL_parts]
  show (if optFalsy (descStage2L content) then some (fallbackDescL content)
        else descStage2L content).getD [] = d
  rw [hst2]
  rw [if_neg (by simpa [optFalsy, List.isEmpty_iff] using hdne)]
  rfl

/-- Witness for C2: the scan hypotheses discharged on the first scenario
document. -/
theorem c2_witness :
    (synthL "# My Skill\n\nThis skill helps you write tests.\n".data).2 =
      "This skill helps you write tests.".data :=
  c2_window_scan.2.1 "# My Skill\n\nThis skill helps you write tests.\n".data
    "# My Skill".data [[], "This skill helps you write tests.".data]
    "This skill helps you write tests.".data (by decide) (by decide)

/-- C3 (amended): the title is decided by the first line starting with `# `:
its stripped text is used when non-empty, and otherwise the placeholder
"Untitled Skill" results (no later heading line is considered); the
placeholder is also used when no line starts with `# `. -/
theorem c3_title_amended (content : List Char) :
    (synthL content).1 = specTitleAmendedL content := by
  rw [synthL_parts]
  show titleOfL content = specTitleAmendedL content
  unfold titleOfL specTitleAmendedL synthTitleRaw
  rw [← findH1_fst]
  cases hf : findH1 (splitCh '\n' (stripL content)) with
  | none => rfl
  | some pr => rfl

/-- Counterexample for C3 as stated: in `"# \x0a# Real Title"` the first line
whose content starts with `# ` followed by non-empty text is the second line,
so the claim predicts title "Real Title", but the code stops at the first
`# ` line, whose text is empty, and falls back to "Untitled Skill". -/
theorem c3_counterexample :
    claimTitleL exDocC3.data = "Real Title".data ∧
    (synthL exDocC3.data).1 = "Untitled Skill".data ∧
    "Real Title".data ≠ "Untitled Skill".data := by
  refine ⟨by decide, by decide, by decide⟩

/-- C9: the ZIP creator produces an archive named `<skill-dir-name>.zip`
containing one entry per regular file in the tree, whose archive path is the
file's path relative to the skill directory's parent, so the skill directory
name is the top-level path component; the `foo` scenario produces `foo.zip`
with entries `foo/Skill.md` and `foo/resources/a.txt`. -/
theorem c9_zip_layout :
    (∀ (parentPath : List String) (n : String) (cs : List FsEntry),
      createSkillZip parentPath (.dir n cs) =
        (n ++ ".zip", (filesOfList [] cs).map (fun p => renderPath (n :: p)))) ∧
    createSkillZip ["root"]
        (.dir "foo" [.file "Skill.md", .dir "resources" [.file "a.txt"]]) =
      ("foo.zip", ["foo/Skill.md", "foo/resources/a.txt"]) := by
  constructor
  · intro parentPath n cs
    have h1 : createSkillZip parentPath (.dir n cs) =
        (n ++ ".zip", (filesOfList (parentPath ++ [n]) cs).map
          (fun p => renderPath (p.drop parentPath.length))) := rfl
    rw [h1]
    congr 1
    rw [filesOfList_base (parentPath ++ [n]) cs, List.map_map]
    apply List.map_congr_left
    intro p _
    show renderPath (((parentPath ++ [n]) ++ p).drop parentPath.length) = renderPath (n :: p)
    congr 1
    rw [List.append_assoc, List.drop_left]
    rfl
  · decide

set_option maxRecDepth 40000 in
/-- C10: because quote escaping happens after the 200-character truncation,
the embedded description value has length exactly the truncated length plus
the number of double quotes in the truncated description (hence at most 200
plus that count); the output embeds exactly this value; and the concrete
document `exDocC10` (quotes near the 200-character boundary) embeds a value
of 201 characters, exceeding 200. -/
theorem c10_embedded_description_length :
    (∀ content : List Char,
      (embeddedDescL content).length =
        (truncatedDescL content).length + (truncatedDescL content).count '"' ∧
      (embeddedDescL content).length ≤ 200 + (truncatedDescL content).count '"') ∧
    (∀ content : List Char,
      convertContentL content =
        renderFM (truncatedTitleL content) (embeddedDescL content) ++
          lstripL (bodyOfL content)) ∧
    (embeddedDescL exDocC10.data).length = 201 ∧
    200 < (embeddedDescL exDocC10.data).length := by
  have hlen : ∀ content : List Char, (truncatedDescL content).length ≤ 200 := by
    intro content
    unfold truncatedDescL
    split
    · simpa using List.length_take_le 200 _
    · omega
  refine ⟨fun content => ?_, convertContentL_eq, by decide, by decide⟩
  have he : (embeddedDescL content).length =
      (truncatedDescL content).length + (truncatedDescL content).count '"' :=
    escQuote_length (truncatedDescL content)
  refine ⟨he, ?_⟩
  have h2 := hlen content
  omega

/-! ### C8: recognition of the `name` field -/

theorem procLine_fst_of_not_name (acc : Option (List Char) × Option (List Char))
    (l : List Char) (h : isNameLine l = false) :
    (procLine acc l).1 = acc.1 := by
  unfold procLine
  by_cases hc : l.contains ':' = true
  · rw [if_pos hc]
    have hk : (keyOfLine l == "name".data) = false := by
      unfold isNameLine at h
      rw [hc] at h
      simpa using h
    by_cases ha : allowedKey (keyOfLine l) = true
    · rw [if_pos ha, if_neg (by simp [hk])]
      by_cases hd : (keyOfLine l == "description".data) = true
      · rw [if_pos hd]
      · rw [if_neg hd]
    · rw [if_neg ha]
  · rw [if_neg hc]

theorem procLine_fst_name (acc : Option (List Char) × Option (List Char))
    (l : List Char) (h : isNameLine l = true) :
    (procLine acc l).1 = some (valOfLine l) := by
  unfold isNameLine at h
  simp only [Bool.and_eq_true] at h
  obtain ⟨hc, hk⟩ := h
  have hkey : keyOfLine l = "name".data := beq_iff_eq.mp hk
  unfold procLine
  rw [if_pos hc, if_pos (show allowedKey (keyOfLine l) = true by rw [hkey]; decide),
    if_pos hk]

theorem fold_no_name (ls : List (List Char)) (acc : Option (List Char) × Option (List Char))
    (h : ∀ l ∈ ls, isNameLine l = false) :
    (ls.foldl procLine acc).1 = acc.1 := by
  induction ls generalizing acc with
  | nil => rfl
  | cons l ls ih =>
    show (ls.foldl procLine (procLine acc l)).1 = acc.1
    rw [ih (procLine acc l) (fun x hx => h x (by simp [hx]))]
    exact procLine_fst_of_not_name acc l (h l (by simp))

theorem foldl_name_unique (ls : List (List Char))
    (acc : Option (List Char) × Option (List Char)) (v : List Char)
    (hmem : ∃ l ∈ ls, isNameLine l = true)
    (hval : ∀ l ∈ ls, isNameLine l = true → valOfLine l = v) :
    (ls.foldl procLine acc).1 = some v := by
  induction ls generalizing acc with
  | nil => simp at hmem
  | cons l ls ih =>
    show (ls.foldl procLine (procLine acc l)).1 = some v
    by_cases hn : ∃ x ∈ ls, isNameLine x = true
    · exact ih (procLine acc l) hn (fun x hx hxx => hval x (by simp [hx]) hxx)
    · have hl : isNameLine l = true := by
        obtain ⟨x, hx, hxn⟩ := hmem
        rcases List.mem_cons.mp hx with heq | hx2
        · rw [heq] at hxn
          exact hxn
        · exact absurd ⟨x, hx2, hxn⟩ hn
      have htail : ∀ x ∈ ls, isNameLine x = false := by
        intro x hx
        by_contra hcon
        exact hn ⟨x, hx, by revert hcon; cases isNameLine x <;> simp⟩
      rw [fold_no_name ls (procLine acc l) htail, procLine_fst_name acc l hl,
        hval l (by simp) hl]

/-- C8: for every document with a well-formed frontmatter block containing
the line `name: "Foo"` (and no other line whose recognized key is `name`),
extraction recognizes the key `name` with value "Foo" — the key being the
trimmed text before the first colon and the value the trimmed remainder with
surrounding quotes stripped. -/
theorem c8_name_recognized (content : String)
    (h1 : pref "---".data (stripL content.data) = true)
    (h2 : 3 ≤ (splitCap "---".data 2 content.data).length)
    (h3 : "name: \"Foo\"".data ∈ fmLinesOfL content.data)
    (h4 : ∀ l ∈ fmLinesOfL content.data, isNameLine l = true → l = "name: \"Foo\"".data) :
    (cleanFrontmatter content).2.1 = some "Foo" := by
  cases hs : splitCap "---".data 2 content.data with
  | nil =>
    rw [hs] at h2
    simp at h2
  | cons p0 rest =>
    cases rest with
    | nil =>
      rw [hs] at h2
      simp at h2
    | cons p1 rest2 =>
      cases rest2 with
      | nil =>
        rw [hs] at h2
        simp at h2
      | cons p2 rest3 =>
        have hfm : fmLinesOfL content.data = splitCh '\n' (stripL p1) := by
          unfold fmLinesOfL
          rw [hs]
        have hclean : (cleanFmL content.data).2.1 =
            ((splitCh '\n' (stripL p1)).foldl procLine (none, none)).1 := by
          unfold cleanFmL
          rw [if_neg (by simp [h1]), hs]
        have hname : ((splitCh '\n' (stripL p1)).foldl procLine (none, none)).1 =
            some "Foo".data := by
          apply foldl_name_unique
          · exact ⟨"name: \"Foo\"".data, hfm ▸ h3, by decide⟩
          · intro l hl hn
            have he := h4 l (hfm ▸ hl) hn
            rw [he]
            decide
        show (cleanFrontmatter content).2.1 = some "Foo"
        unfold cleanFrontmatter
        rw [hclean, hname]
        exact rfl

/-- Witness for C8 at a concrete well-formed document. -/
theorem c8_witness :
    (cleanFrontmatter "---\nname: \"Foo\"\ndescription: \"Bar\"\n---\nbody").2.1 =
      some "Foo" :=
  c8_name_recognized "---\nname: \"Foo\"\ndescription: \"Bar\"\n---\nbody"
    (by decide) (by decide) (by decide) (by decide)

/-! ### Symbolic extraction of rendered documents (C1, C7) -/

theorem niceCh_ne_nl {c : Char} (h : niceCh c = true) : c ≠ '\n' := by
  intro e
  subst e
  exact absurd h (by decide)

theorem niceCh_ne_dash {c : Char} (h : niceCh c = true) : c ≠ '-' := by
  intro e
  subst e
  exact absurd h (by decide)

theorem niceCh_ne_quote {c : Char} (h : niceCh c = true) : c ≠ '"' := by
  intro e
  subst e
  exact absurd h (by decide)

theorem niceCh_not_quote {c : Char} (h : niceCh c = true) : isQuoteCh c = false := by
  by_cases h1 : c = '"'
  · subst h1
    exact absurd h (by decide)
  · by_cases h2 : c = Char.ofNat 39
    · subst h2
      exact absurd h (by decide)
    · simp [isQuoteCh, beq_iff_eq, h1, h2]

theorem takeWhile_append_stop (p : Char → Bool) (A X : List Char)
    (h : A.dropWhile p ≠ []) :
    (A ++ X).takeWhile p = A.takeWhile p := by
  induction A with
  | nil => simp at h
  | cons a A' ih =>
    by_cases hp : p a = true
    · simp only [List.cons_append, List.takeWhile_cons, hp, if_true]
      have h' : A'.dropWhile p ≠ [] := by
        revert h
        simp [List.dropWhile_cons, hp]
      rw [ih h']
    · simp [List.takeWhile_cons, hp]

theorem splitCap_succ (sep : List Char) (n : Nat) (l : List Char) :
    splitCap sep (n + 1) l =
      match findOcc sep l with
      | none => [l]
      | some (b, a) => b :: splitCap sep n a := rfl

theorem docOfL_canonical (t d b : List Char) :
    docOfL t d b = fmDoc t d ("\n".data ++ b) := by
  unfold docOfL fmDoc fmMid
  rw [show ("---\nname: \"".data : List Char) = "---".data ++ "\nname: \"".data from by decide]
  rw [show ("\"\n---\n".data : List Char) = "\"\n".data ++ ("---".data ++ "\n".data)
    from by decide]
  simp [List.append_assoc]

theorem renderFM_canonical (t d X : List Char) :
    renderFM t d ++ X = fmDoc t d ("\n\n".data ++ X) := by
  unfold renderFM fmDoc fmMid
  rw [show ("---\nname: \"".data : List Char) = "---".data ++ "\nname: \"".data from by decide]
  rw [show ("\"\n---\n\n".data : List Char) = "\"\n".data ++ ("---".data ++ "\n\n".data)
    from by decide]
  simp [List.append_assoc]

theorem mem_fmMid_cases (t d : List Char) (c : Char) (hc : c ∈ fmMid t d) :
    c ∈ "\nname: \"".data ∨ c ∈ t ∨ c ∈ "\"\ndescription: \"".data ∨ c ∈ d ∨
      c ∈ "\"\n".data := by
  unfold fmMid at hc
  simpa [List.mem_append, or_assoc] using hc

theorem fmMid_no_dash (t d : List Char)
    (ht : ∀ c ∈ t, c ≠ '-') (hd : ∀ c ∈ d, c ≠ '-') :
    ∀ c ∈ fmMid t d, c ≠ '-' := by
  intro c hc
  rcases mem_fmMid_cases t d c hc with h | h | h | h | h
  · intro e
    subst e
    exact absurd h (by decide)
  · exact ht c h
  · intro e
    subst e
    exact absurd h (by decide)
  · exact hd c h
  · intro e
    subst e
    exact absurd h (by decide)

theorem splitCap_fmDoc (t d T : List Char)
    (ht : ∀ c ∈ t, c ≠ '-') (hd : ∀ c ∈ d, c ≠ '-') :
    splitCap "---".data 2 (fmDoc t d T) = [[], fmMid t d, T] := by
  unfold fmDoc
  rw [splitCap_succ, findOcc_self "---".data _ (by decide)]
  show [] :: splitCap "---".data 1 (fmMid t d ++ ("---".data ++ T)) = [[], fmMid t d, T]
  rw [splitCap_succ]
  rw [show findOcc "---".data (fmMid t d ++ ("---".data ++ T)) = some (fmMid t d, T) from
    findOcc_sandwich '-' "--".data (fmMid t d) T (fmMid_no_dash t d ht hd)]
  rfl

theorem pref_fmDoc (t d T : List Char) :
    pref "---".data (stripL (fmDoc t d T)) = true := by
  unfold fmDoc stripL
  have h1 : ("---".data ++ (fmMid t d ++ ("---".data ++ T))).dropWhile pyIsSpace =
      "---".data ++ (fmMid t d ++ ("---".data ++ T)) := by
    rw [dropWhile_append_pos pyIsSpace "---".data _ (by decide)]
    rw [show "---".data.dropWhile pyIsSpace = "---".data from by decide]
  rw [h1]
  have hn : 'n' ∈ fmMid t d ++ ("---".data ++ T) := by
    apply List.mem_append_left
    unfold fmMid
    exact List.mem_append_left _ (by decide)
  rw [dropTail_append pyIsSpace "---".data _ 'n' hn (by decide)]
  exact pref_append_self _ _

theorem stripL_fmMid (t d : List Char) :
    stripL (fmMid t d) = nameLineOf t ++ ('\n' :: descLineOf d) := by
  unfold fmMid stripL
  rw [dropWhile_append_pos pyIsSpace "\nname: \"".data _ (by decide)]
  rw [show "\nname: \"".data.dropWhile pyIsSpace = "name: \"".data from by decide]
  rw [dropTail_append pyIsSpace "name: \"".data _ '"'
    (List.mem_append_right t (List.mem_append_left _ (by decide))) (by decide)]
  rw [dropTail_append pyIsSpace t _ '"' (List.mem_append_left _ (by decide)) (by decide)]
  rw [dropTail_append pyIsSpace "\"\ndescription: \"".data _ '"'
    (List.mem_append_right d (by decide)) (by decide)]
  rw [dropTail_append pyIsSpace d _ '"' (by decide) (by decide)]
  rw [show dropTailWhile pyIsSpace "\"\n".data = "\"".data from by decide]
  unfold nameLineOf descLineOf
  rw [show ("\"\ndescription: \"".data : List Char) =
    "\"".data ++ ('\n' :: "description: \"".data) from by decide]
  simp [List.append_assoc]

theorem splitCh_fmMid (t d : List Char) (ht : '\n' ∉ t) (hd : '\n' ∉ d) :
    splitCh '\n' (stripL (fmMid t d)) = [nameLineOf t, descLineOf d] := by
  rw [stripL_fmMid]
  have h1 : '\n' ∉ nameLineOf t := by
    intro hmem
    unfold nameLineOf at hmem
    rcases List.mem_append.mp hmem with h | h
    · exact absurd h (by decide)
    · rcases List.mem_append.mp h with h | h
      · exact ht h
      · exact absurd h (by decide)
  have h2 : '\n' ∉ descLineOf d := by
    intro hmem
    unfold descLineOf at hmem
    rcases List.mem_append.mp hmem with h | h
    · exact absurd h (by decide)
    · rcases List.mem_append.mp h with h | h
      · exact hd h
      · exact absurd h (by decide)
  rw [splitCh_sandwich '\n' (nameLineOf t) (descLineOf d) h1]
  rw [splitCh_not_mem '\n' (descLineOf d) h2]

theorem contains_nameLine (t : List Char) : (nameLineOf t).contains ':' = true := by
  apply List.elem_eq_true_of_mem
  unfold nameLineOf
  exact List.mem_append_left _ (by decide)

theorem contains_descLine (d : List Char) : (descLineOf d).contains ':' = true := by
  apply List.elem_eq_true_of_mem
  unfold descLineOf
  exact List.mem_append_left _ (by decide)

theorem keyOf_nameLine (t : List Char) : keyOfLine (nameLineOf t) = "name".data := by
  unfold keyOfLine nameLineOf
  rw [takeWhile_append_stop _ _ _ (by decide)]
  decide

theorem keyOf_descLine (d : List Char) : keyOfLine (descLineOf d) = "description".data := by
  unfold keyOfLine descLineOf
  rw [takeWhile_append_stop _ _ _ (by decide)]
  decide

theorem dropTail_of_nice (p : Char → Bool) (t : List Char) (htne : t ≠ [])
    (h : ∀ c ∈ t, p c = false) : dropTailWhile p t = t := by
  rcases t.eq_nil_or_concat with hnil | ⟨L, x, hL⟩
  · exact absurd hnil htne
  · rw [List.concat_eq_append] at hL
    rw [hL]
    exact dropTail_concat p L x (h x (by rw [hL]; exact List.mem_append_right L (by simp)))

theorem valOf_nameLine (t : List Char) (htne : t ≠ [])
    (htn : ∀ c ∈ t, niceCh c = true) : valOfLine (nameLineOf t) = t := by
  unfold valOfLine nameLineOf
  rw [dropWhile_append_pos _ "name: \"".data _ (by decide)]
  rw [show "name: \"".data.dropWhile (fun c => !(c == ':')) = ": \"".data from by decide]
  rw [show ((": \"".data ++ (t ++ "\"".data)).drop 1) = " \"".data ++ (t ++ "\"".data)
    from rfl]
  unfold stripL
  rw [dropWhile_append_pos pyIsSpace " \"".data _ (by decide)]
  rw [show " \"".data.dropWhile pyIsSpace = "\"".data from by decide]
  rw [dropTail_append pyIsSpace "\"".data _ '"' (List.mem_append_right t (by decide))
    (by decide)]
  rw [dropTail_append pyIsSpace t _ '"' (by decide) (by decide)]
  rw [show dropTailWhile pyIsSpace "\"".data = "\"".data from by decide]
  unfold stripQL
  rw [dropWhile_append_all isQuoteCh "\"".data _ (by decide)]
  cases t with
  | nil => exact absurd rfl htne
  | cons c t' =>
    have hc : isQuoteCh c = false := niceCh_not_quote (htn c (by simp))
    rw [show ((c :: t') ++ "\"".data : List Char) = c :: (t' ++ "\"".data) from rfl]
    rw [List.dropWhile_cons, if_neg (by simp [hc])]
    rw [show (c :: (t' ++ "\"".data) : List Char) = (c :: t') ++ "\"".data from rfl]
    rw [dropTail_append_all isQuoteCh (c :: t') "\"".data (by decide)]
    exact dropTail_of_nice isQuoteCh (c :: t') (by simp)
      (fun x hx => niceCh_not_quote (htn x hx))

theorem valOf_descLine (d : List Char) (hdne : d ≠ [])
    (hdn : ∀ c ∈ d, niceCh c = true) : valOfLine (descLineOf d) = d := by
  unfold valOfLine descLineOf
  rw [dropWhile_append_pos _ "description: \"".data _ (by decide)]
  rw [show "description: \"".data.dropWhile (fun c => !(c == ':')) = ": \"".data
    from by decide]
  rw [show ((": \"".data ++ (d ++ "\"".data)).drop 1) = " \"".data ++ (d ++ "\"".data)
    from rfl]
  unfold stripL
  rw [dropWhile_append_pos pyIsSpace " \"".data _ (by decide)]
  rw [show " \"".data.dropWhile pyIsSpace = "\"".data from by decide]
  rw [dropTail_append pyIsSpace "\"".data _ '"' (List.mem_append_right d (by decide))
    (by decide)]
  rw [dropTail_append pyIsSpace d _ '"' (by decide) (by decide)]
  rw [show dropTailWhile pyIsSpace "\"".data = "\"".data from by decide]
  unfold stripQL
  rw [dropWhile_append_all isQuoteCh "\"".data _ (by decide)]
  cases d with
  | nil => exact absurd rfl hdne
  | cons c d' =>
    have hc : isQuoteCh c = false := niceCh_not_quote (hdn c (by simp))
    rw [show ((c :: d') ++ "\"".data : List Char) = c :: (d' ++ "\"".data) from rfl]
    rw [List.dropWhile_cons, if_neg (by simp [hc])]
    rw [show (c :: (d' ++ "\"".data) : List Char) = (c :: d') ++ "\"".data from rfl]
    rw [dropTail_append_all isQuoteCh (c :: d') "\"".data (by decide)]
    exact dropTail_of_nice isQuoteCh (c :: d') (by simp)
      (fun x hx => niceCh_not_quote (hdn x hx))

theorem procLine_nameLine (a b : Option (List Char)) (t : List Char) (htne : t ≠ [])
    (htn : ∀ c ∈ t, niceCh c = true) :
    procLine (a, b) (nameLineOf t) = (some t, b) := by
  unfold procLine
  rw [if_pos (contains_nameLine t), keyOf_nameLine]
  rw [if_pos (by decide), if_pos (by decide)]
  rw [valOf_nameLine t htne htn]

theorem procLine_descLine (a b : Option (List Char)) (d : List Char) (hdne : d ≠ [])
    (hdn : ∀ c ∈ d, niceCh c = true) :
    procLine (a, b) (descLineOf d) = (a, some d) := by
  unfold procLine
  rw [if_pos (contains_descLine d), keyOf_descLine]
  rw [if_pos (by decide), if_neg (by decide), if_pos (by decide)]
  rw [valOf_descLine d hdne hdn]

theorem cleanFm_fmDoc (t d T : List Char)
    (htne : t ≠ []) (hdne : d ≠ [])
    (htn : ∀ c ∈ t, niceCh c = true) (hdn : ∀ c ∈ d, niceCh c = true) :
    cleanFmL (fmDoc t d T) = (T, some t, some d) := by
  have hdash_t : ∀ c ∈ t, c ≠ '-' := fun c hc => niceCh_ne_dash (htn c hc)
  have hdash_d : ∀ c ∈ d, c ≠ '-' := fun c hc => niceCh_ne_dash (hdn c hc)
  have hnl_t : '\n' ∉ t := fun hm => niceCh_ne_nl (htn _ hm) rfl
  have hnl_d : '\n' ∉ d := fun hm => niceCh_ne_nl (hdn _ hm) rfl
  unfold cleanFmL
  rw [if_neg (by simp [pref_fmDoc t d T])]
  rw [splitCap_fmDoc t d T hdash_t hdash_d]
  show (T, ((splitCh '\n' (stripL (fmMid t d))).foldl procLine (none, none)).1,
        ((splitCh '\n' (stripL (fmMid t d))).foldl procLine (none, none)).2) =
      (T, some t, some d)
  rw [splitCh_fmMid t d hnl_t hnl_d]
  show (T, (procLine (procLine (none, none) (nameLineOf t)) (descLineOf d)).1,
        (procLine (procLine (none, none) (nameLineOf t)) (descLineOf d)).2) =
      (T, some t, some d)
  rw [procLine_nameLine none none t htne htn]
  rw [procLine_descLine (some t) none d hdne hdn]

theorem fmKeys_fmDoc (t d T : List Char)
    (ht1 : ∀ c ∈ t, c ≠ '-') (ht2 : '\n' ∉ t)
    (hd1 : ∀ c ∈ d, c ≠ '-') (hd2 : '\n' ∉ d) :
    fmKeysL (fmDoc t d T) = ["name".data, "description".data] := by
  unfold fmKeysL
  rw [splitCap_fmDoc t d T ht1 hd1]
  show ((splitCh '\n' (stripL (fmMid t d))).filter (fun ln => ln.contains ':')).map
      keyOfLine = _
  rw [splitCh_fmMid t d ht2 hd2]
  rw [show ([nameLineOf t, descLineOf d].filter (fun ln => ln.contains ':')) =
      [nameLineOf t, descLineOf d] from by
    have hm1 : ':' ∈ nameLineOf t := by
      unfold nameLineOf
      exact List.mem_append_left _ (by decide)
    have hm2 : ':' ∈ descLineOf d := by
      unfold descLineOf
      exact List.mem_append_left _ (by decide)
    simp [List.filter_cons, hm1, hm2]]
  simp [keyOf_nameLine, keyOf_descLine]

theorem flatMap_esc_id (l : List Char) (h : ∀ c ∈ l, c ≠ '"') :
    l.flatMap (fun c => if c = '"' then "\\\"".data else [c]) = l := by
  induction l with
  | nil => rfl
  | cons x xs ih =>
    rw [List.flatMap_cons, if_neg (h x (by simp)), ih (fun c hc => h c (by simp [hc]))]
    rfl

/-- C1 (amended): for every document with a well-formed frontmatter block,
the rebuilt output document's metadata block contains exactly the keys
`name` and `description` — other recognized allow-listed fields such as
`license` are filtered during parsing but are not re-emitted.  (Stated for
resolved values free of hyphens and newlines, so the output keys are
well-defined.) -/
theorem c1_output_keys (content : List Char)
    (hwf1 : pref "---".data (stripL content) = true)
    (hwf2 : 3 ≤ (splitCap "---".data 2 content).length)
    (ht1 : ∀ c ∈ truncatedTitleL content, c ≠ '-')
    (ht2 : '\n' ∉ truncatedTitleL content)
    (hd1 : ∀ c ∈ embeddedDescL content, c ≠ '-')
    (hd2 : '\n' ∉ embeddedDescL content) :
    fmKeysL (convertContentL content) = ["name".data, "description".data] := by
  rw [convertContentL_eq, renderFM_canonical]
  exact fmKeys_fmDoc _ _ _ ht1 ht2 hd1 hd2

/-- Counterexample for C1 as stated: the input document `exDocC1` carries the
allow-listed key `license` in its frontmatter, but the rebuilt output's
metadata block contains only `name` and `description` — the `license` field
is not retained, contradicting the claim that every recognized allow-listed
input field appears in the output block. -/
theorem c1_counterexample :
    "license".data ∈ fmKeysL exDocC1.data ∧
    fmKeysL (convertContentL exDocC1.data) = ["name".data, "description".data] ∧
    "license".data ∉ fmKeysL (convertContentL exDocC1.data) := by
  refine ⟨by decide, by decide, by decide⟩

/-- Witness for C1 (amended) at the concrete document with a `license`
field. -/
theorem c1_witness :
    fmKeysL (convertContentL exDocC1.data) = ["name".data, "description".data] :=
  c1_output_keys exDocC1.data (by decide) (by decide) (by decide) (by decide)
    (by decide) (by decide)

/-- C7: round-trip: for a document with only the allow-listed `name` and
`description` frontmatter fields (plain non-empty values within the length
limits) and a body with no leading whitespace, rebuilding from the extraction
reproduces the semantic content: extraction of the input and of the rebuilt
output recognize the same title and the same description, and the bodies
agree after stripping leading whitespace, even though the byte layout
differs (an extra blank line). -/
theorem c7_roundtrip (t d b : List Char)
    (htne : t ≠ []) (hdne : d ≠ [])
    (htn : ∀ c ∈ t, niceCh c = true) (hdn : ∀ c ∈ d, niceCh c = true)
    (ht64 : t.length ≤ 64) (hd200 : d.length ≤ 200)
    (hb : lstripL b = b) :
    cleanFmL (docOfL t d b) = ("\n".data ++ b, some t, some d) ∧
    convertContentL (docOfL t d b) = renderFM t d ++ b ∧
    cleanFmL (convertContentL (docOfL t d b)) = ("\n\n".data ++ b, some t, some d) ∧
    lstripL ("\n".data ++ b) = b ∧ lstripL ("\n\n".data ++ b) = b := by
  have h1 : cleanFmL (docOfL t d b) = ("\n".data ++ b, some t, some d) := by
    rw [docOfL_canonical]
    exact cleanFm_fmDoc t d _ htne hdne htn hdn
  have hlb1 : lstripL ("\n".data ++ b) = b := by
    show ('\n' :: b).dropWhile pyIsSpace = b
    rw [List.dropWhile_cons, if_pos (by decide)]
    exact hb
  have hlb2 : lstripL ("\n\n".data ++ b) = b := by
    show ('\n' :: ('\n' :: b)).dropWhile pyIsSpace = b
    rw [List.dropWhile_cons, if_pos (by decide), List.dropWhile_cons, if_pos (by decide)]
    exact hb
  have hbody : bodyOfL (docOfL t d b) = "\n".data ++ b := by
    unfold bodyOfL
    rw [h1]
  have hrt : resolvedTitleL (docOfL t d b) = t := by
    unfold resolvedTitleL
    rw [h1]
    show (if t.isEmpty then (synthL (bodyOfL (docOfL t d b))).1 else t) = t
    rw [if_neg (by simpa [List.isEmpty_iff] using htne)]
  have hrd : resolvedDescL (docOfL t d b) = d := by
    unfold resolvedDescL
    rw [h1]
    show (if d.isEmpty then (synthL (bodyOfL (docOfL t d b))).2 else d) = d
    rw [if_neg (by simpa [List.isEmpty_iff] using hdne)]
  have htt : truncatedTitleL (docOfL t d b) = t := by
    unfold truncatedTitleL
    rw [hrt]
    rw [if_neg (by omega)]
  have htd : truncatedDescL (docOfL t d b) = d := by
    unfold truncatedDescL
    rw [hrd]
    rw [if_neg (by omega)]
  have hed : embeddedDescL (docOfL t d b) = d := by
    unfold embeddedDescL
    rw [htd, escQuote_eq_flatMap]
    exact flatMap_esc_id d (fun c hc => niceCh_ne_quote (hdn c hc))
  have h2 : convertContentL (docOfL t d b) = renderFM t d ++ b := by
    rw [convertContentL_eq, htt, hed, hbody, hlb1]
  have h3 : cleanFmL (convertContentL (docOfL t d b)) =
      ("\n\n".data ++ b, some t, some d) := by
    rw [h2, renderFM_canonical]
    exact cleanFm_fmDoc t d _ htne hdne htn hdn
  exact ⟨h1, h2, h3, hlb1, hlb2⟩

/-- Witness for C7 at concrete title, description and body. -/
theorem c7_witness :
    cleanFmL (convertContentL
        (docOfL "My Skill".data "Does things well".data "Body text.".data)) =
      ("\n\n".data ++ "Body text.".data, some "My Skill".data,
        some "Does things well".data) :=
  (c7_roundtrip "My Skill".data "Does things well".data "Body text.".data
    (by decide) (by decide) (by decide) (by decide) (by decide) (by decide)
    (by decide)).2.2.1
